import Mathlib

/-
Verification of the smallsh command interpreter (smallsh.c).

Shallow embedding conventions:
  * a C string is a List Char (the characters before the terminating NUL);
  * the argument array char** args is the NULL-terminated prefix, a
    List (List Char);
  * the globals written by parseArgs (inputRedirectionFlag together with
    inputRedirectionFileName, outputRedirectionFlag together with
    outputRedirectionFileName, backgroundFlag) are modelled as a ParseState
    record threaded through the parse; the flag and the file-name buffer are
    set together in the source, so a flag-plus-name pair is one Option field;
  * getpid() is a parameter pid : Nat and sprintf "%d" is Nat.repr;
  * the process registry struct processArray is a record whose array field
    is a List Int of length capacity (the C ints capacity and size are
    non-negative in every reachable state, which the registry invariant
    proved below makes explicit, so they are carried as Nat).
-/

/-- Characters on which getArgs splits: space and tab (smallsh.c line 465). -/
def isSep (c : Char) : Bool := c = ' ' || c = '\t'

/-- Embedding of the scanning loop of getArgs (smallsh.c lines 463-489).
The accumulator curr is the currWord buffer.  Each separator character ends
the current word and stores it (even when it is empty, as happens for two
adjacent separators); after the loop the last word is stored unconditionally
(lines 485-489), so an empty line still yields one empty word. -/
def getArgsAux : List Char → List Char → List (List Char)
  | [], curr => [curr]
  | c :: rest, curr =>
    if isSep c then curr :: getArgsAux rest []
    else getArgsAux rest (curr ++ [c])

/-- Embedding of getArgs (smallsh.c lines 453-492): split the prompt input
into words, starting from an empty currWord buffer. -/
def getArgs (line : List Char) : List (List Char) := getArgsAux line []

/-- Decimal string of the interpreter pid, as sprintf "%d" produces it
(smallsh.c lines 606-608 and 693-695). -/
def pidChars (pid : Nat) : List Char := (Nat.repr pid).toList

/-- Two adjacent dollar signs occur somewhere in the string.  Mirrors the
scan condition of replaceDoubleDollars, which inspects positions index and
index + 1 while both are inside the string. -/
def hasDoubleDollar : List Char → Bool
  | [] => false
  | [_] => false
  | a :: b :: rest => (a = '$' && b = '$') || hasDoubleDollar (b :: rest)

/-- Embedding of replaceDoubleDollars (smallsh.c lines 591-630).  The loop
walks the string while the character after the current one is not the
terminator; at the first position holding two dollar signs it builds a new
string from the prefix, the pid string and the remainder after the two
dollar signs, and returns at once, so at most the first occurrence is
replaced. -/
def replaceDoubleDollars (pid : List Char) : List Char → List Char
  | [] => []
  | [c] => [c]
  | a :: b :: rest =>
    if a = '$' && b = '$' then pid ++ rest
    else a :: replaceDoubleDollars pid (b :: rest)

/-- Spec-side reference function, written from the words of the spec, for
comparison with the source function above: every occurrence of the
two-character marker is replaced by the pid string and nothing else is
altered. -/
def specReplaceAll (pid : List Char) : List Char → List Char
  | [] => []
  | [c] => [c]
  | a :: b :: rest =>
    if a = '$' && b = '$' then pid ++ specReplaceAll pid rest
    else a :: specReplaceAll pid (b :: rest)

/-- Embedding of isWord (smallsh.c lines 535-555): NULL and the empty string
are not words, and a one-character string consisting of one of the three
operator characters is not a word; everything else is. -/
def isWord : Option (List Char) → Bool
  | none => false
  | some [] => false
  | some (c :: rest) => !((c = '<' || c = '>' || c = '&') && rest.isEmpty)

/-- The globals parseArgs writes: redirection targets (flag and file name
set together, smallsh.c lines 659-661 and 678-680) and the background flag
(lines 704-707). -/
structure ParseState where
  inputRedirection : Option (List Char)
  outputRedirection : Option (List Char)
  backgroundFlag : Bool
deriving DecidableEq, Repr

/-- Flag state at the top of each dispatch-loop iteration: resetFlags
(smallsh.c lines 735-739) cleared all three flags at the end of the previous
iteration, and main initialises them to zero. -/
def initParseState : ParseState :=
  { inputRedirection := none, outputRedirection := none, backgroundFlag := false }

/-- Embedding of the scanning loop of parseArgs (smallsh.c lines 648-728).
The first component of the result is the reduced argument vector (the
NULL-terminated prefix left in args by argsFilterDown and the final
terminator store at lines 724-727); the second is the directive state.

Branches, in source order:
  * a token equal to the one-character string of a less-than sign whose
    successor satisfies isWord consumes both tokens and records the input
    target (lines 655-665); with no successor or a non-word successor the
    operator is filtered down as a literal argument (lines 668-670);
  * symmetrically for the greater-than sign (lines 674-690);
  * a token that is exactly two dollar signs is overwritten in place with
    the pid string and re-examined on the next loop pass (lines 692-698);
    the pid string is a nonempty decimal-digit string, so that next pass
    necessarily takes the final regular-argument branch, which applies
    replaceDoubleDollars (a no-op on digits) and filters the token down;
    the embedding inlines that pass;
  * an ampersand token with no successor sets the background flag, then
    clears it again when background execution is disallowed, and is
    consumed (lines 701-709); with a successor it is filtered down as a
    literal (lines 711-713);
  * any other token has replaceDoubleDollars applied to it and is filtered
    down (lines 718-722).

The one-token patterns are the loop iterations in which the lookahead
args at examineIndex + 1 is NULL. -/
def parseArgsAux (pid : Nat) (allowed : Bool) :
    List (List Char) → ParseState → List (List Char) × ParseState
  | [], st => ([], st)
  | [a], st =>
    if a = ['<'] then ([a], st)
    else if a = ['>'] then ([a], st)
    else if a = ['$', '$'] then
      ([replaceDoubleDollars (pidChars pid) (pidChars pid)], st)
    else if a = ['&'] then ([], { st with backgroundFlag := allowed })
    else ([replaceDoubleDollars (pidChars pid) a], st)
  | a :: b :: rest, st =>
    if a = ['<'] then
      if isWord (some b) then
        parseArgsAux pid allowed rest { st with inputRedirection := some b }
      else
        let r := parseArgsAux pid allowed (b :: rest) st
        (a :: r.1, r.2)
    else if a = ['>'] then
      if isWord (some b) then
        parseArgsAux pid allowed rest { st with outputRedirection := some b }
      else
        let r := parseArgsAux pid allowed (b :: rest) st
        (a :: r.1, r.2)
    else if a = ['$', '$'] then
      let r := parseArgsAux pid allowed (b :: rest) st
      (replaceDoubleDollars (pidChars pid) (pidChars pid) :: r.1, r.2)
    else if a = ['&'] then
      let r := parseArgsAux pid allowed (b :: rest) st
      (a :: r.1, r.2)
    else
      let r := parseArgsAux pid allowed (b :: rest) st
      (replaceDoubleDollars (pidChars pid) a :: r.1, r.2)

/-- Embedding of parseArgs as called from main: the flags start cleared. -/
def parseArgs (pid : Nat) (allowed : Bool) (args : List (List Char)) :
    List (List Char) × ParseState :=
  parseArgsAux pid allowed args initParseState

/-- Embedding of struct processArray (smallsh.c lines 151-155): the dynamic
array of background pids.  The array field lists the capacity slots. -/
structure processes where
  capacity : Nat
  size : Nat
  array : List Int
deriving DecidableEq, Repr

/-- Embedding of createProcessArray (smallsh.c lines 166-180): capacity 10,
size 0, all slots zero. -/
def createProcessArray : processes :=
  { capacity := 10, size := 0, array := List.replicate 10 0 }

/-- Embedding of doubleCapacity (smallsh.c lines 227-245): allocate an array
of twice the capacity filled with zeros, copy the capacity old entries over
(so the new array is the old entries followed by capacity zeros), and double
the capacity field. -/
def doubleCapacity (p : processes) : processes :=
  { capacity := p.capacity * 2
    size := p.size
    array := p.array.take p.capacity ++ List.replicate p.capacity 0 }

/-- Store zero in every slot from index lo to the end of the array: the
defensive loop in processesAdd (smallsh.c lines 266-268) after a doubling,
which runs index from size to capacity. -/
def zeroFrom (a : List Int) (lo : Nat) : List Int :=
  a.take lo ++ List.replicate (a.length - lo) 0

/-- First index at which the predicate holds: the scanning loops of
processesAdd (lines 272-280) and processesRemove (lines 295-309), which run
over indices below capacity, the length of the array. -/
def findSlot (f : Int → Bool) : List Int → Option Nat
  | [] => none
  | x :: rest => if f x then some 0 else (findSlot f rest).map (fun i => i + 1)

/-- Embedding of processesAdd (smallsh.c lines 255-281): double the capacity
when the array is full (re-zeroing the slots from size to capacity), then
store the value in the first zero slot and increment size; when no zero slot
exists the value is silently not stored (the loop falls off the end). -/
def processesAdd (p : processes) (val : Int) : processes :=
  let q :=
    if p.capacity = p.size then
      let d := doubleCapacity p
      { d with array := zeroFrom d.array d.size }
    else p
  match findSlot (fun x => x == 0) q.array with
  | some i => { q with array := q.array.set i val, size := q.size + 1 }
  | none => q

/-- Embedding of processesRemove (smallsh.c lines 291-310): find the first
slot holding the value; shift every later slot down by one, store zero in
the last slot (together: erase the found index and append one zero), and
decrement size.  When the value is absent nothing changes. -/
def processesRemove (p : processes) (val : Int) : processes :=
  match findSlot (fun x => x == val) p.array with
  | some i => { p with array := p.array.eraseIdx i ++ [0], size := p.size - 1 }
  | none => p

/-- The slots the reaper visits: cleanupProcs (smallsh.c lines 881-922)
iterates over array indices 0 up to size. -/
def enumerateJobs (p : processes) : List Int := p.array.take p.size

/-- The registry shape maintained by the source: the live pids form a
contiguous prefix of length exactly size (all nonzero), every later slot is
zero, the array has exactly capacity slots, and the capacity is positive. -/
def RegistryInv (p : processes) : Prop :=
  ∃ live : List Int,
    p.array = live ++ List.replicate (p.capacity - p.size) 0 ∧
    live.length = p.size ∧
    p.size ≤ p.capacity ∧
    0 < p.capacity ∧
    ∀ x ∈ live, x ≠ 0

/-- One registry operation, as issued by spawnProcess (add, line 843) and
cleanupProcs (remove, line 916). -/
inductive RegOp
  | addOp (val : Int)
  | removeOp (val : Int)
deriving DecidableEq, Repr

/-- Apply a sequence of registry operations from a given state. -/
def applyOps (p : processes) : List RegOp → processes
  | [] => p
  | RegOp.addOp v :: rest => applyOps (processesAdd p v) rest
  | RegOp.removeOp v :: rest => applyOps (processesRemove p v) rest

/-- Operation sequences the shell can issue: added pids are nonzero (fork
returns a positive pid for the parent) and distinct from every live entry
(pids are unique while live), and removed pids are currently enumerable
(cleanupProcs removes exactly the pid waitpid just reported). -/
def legalOps (p : processes) : List RegOp → Bool
  | [] => true
  | RegOp.addOp v :: rest =>
    (v != 0) && !((enumerateJobs p).contains v) && legalOps (processesAdd p v) rest
  | RegOp.removeOp v :: rest =>
    ((enumerateJobs p).contains v) && legalOps (processesRemove p v) rest

/-- The three globals involved in the mode-toggle protocol (smallsh.c lines
49, 50, 54). -/
structure ShellState where
  background_allowed : Bool
  previous_background_allowed : Bool
  foregroundProcessRunning : Bool
deriving DecidableEq, Repr

/-- Embedding of shellCatchSIGTSTP (smallsh.c lines 116-140): flip
background_allowed; when a foreground process is running return without
output; otherwise write the message for the new mode and set
previous_background_allowed equal to background_allowed so the main loop
will not repeat the message.  The second component lists the strings
written. -/
def shellCatchSIGTSTP (s : ShellState) : ShellState × List String :=
  let s1 : ShellState := { s with background_allowed := !s.background_allowed }
  if s1.foregroundProcessRunning then (s1, [])
  else if s1.background_allowed = false then
    ({ s1 with previous_background_allowed := s1.background_allowed },
     ["\nEntering foreground-only mode (& is now ignored)\n:"])
  else
    ({ s1 with previous_background_allowed := s1.background_allowed },
     ["\nExiting foreground-only mode\n:"])

/-- Embedding of displayBGMessage (smallsh.c lines 354-372), run at each
prompt: when the two flags are equal do nothing; otherwise print the message
for the current mode and set previous_background_allowed equal to
background_allowed. -/
def displayBGMessage (s : ShellState) : ShellState × List String :=
  if s.background_allowed = s.previous_background_allowed then (s, [])
  else if s.background_allowed = false then
    ({ s with previous_background_allowed := s.background_allowed },
     ["\nEntering foreground-only mode (& is now ignored)\n"])
  else
    ({ s with previous_background_allowed := s.background_allowed },
     ["\nExiting foreground-only mode\n"])

/-- Disposition of a signal in the child after the signal() call. -/
inductive Sigdisp
  | sigDfl
  | sigIgn
deriving DecidableEq, Repr

/-- What a standard stream of the child ends up attached to. -/
inductive FdSource
  | inherited
  | fromFile (name : String)
  | devNull
  | invalidFd
deriving DecidableEq, Repr

/-- The operating-system facts the child code branches on: whether the two
open() calls succeed and whether execvp finds a runnable program. -/
structure ChildEnv where
  canOpenRead : String → Bool
  canOpenWrite : String → Bool
  execOk : Bool

/-- How the child process ends, relative to program replacement. -/
inductive ChildOutcome
  | earlyExit (code : Nat) (msg : String)
  | execReached
  | execFailedExit (code : Nat)
deriving DecidableEq, Repr

/-- Observable result of running the child branch of spawnProcess. -/
structure ChildRun where
  sigtstpDisposition : Sigdisp
  stdinSource : FdSource
  stdoutSource : FdSource
  outcome : ChildOutcome
deriving DecidableEq, Repr

/-- Embedding of the child branch of spawnProcess (smallsh.c lines 791-833),
in source order:
  * line 793: signal(SIGTSTP, SIG_IGN) makes the child ignore the stop
    signal; every path below carries that disposition;
  * lines 797-808: with the input flag set, open the input file read-only;
    on failure print the cannot-open message and exit(1) before execvp; on
    success dup2 it onto standard input; with the flag clear and the
    background flag set, attach the null device; otherwise the stream is
    inherited;
  * lines 814-822: with the output flag set, open the output file for
    write/create/truncate and dup2 the returned descriptor onto standard
    output with no failure check, so a failed open leaves the invalid
    descriptor -1 (whose dup2 changes nothing) and execution continues;
    with the flag clear and the background flag set, attach the null
    device; otherwise the stream is inherited;
  * lines 825-833: execvp replaces the program image; when it fails the
    child prints the program name with the errno text and exits(1). -/
def childRun (env : ChildEnv)
    (inputRedirectionFlag outputRedirectionFlag backgroundFlag : Bool)
    (inputRedirectionFileName outputRedirectionFileName : String) : ChildRun :=
  if inputRedirectionFlag && !env.canOpenRead inputRedirectionFileName then
    { sigtstpDisposition := Sigdisp.sigIgn
      stdinSource := FdSource.inherited
      stdoutSource := FdSource.inherited
      outcome := ChildOutcome.earlyExit 1
        ("cannot open " ++ inputRedirectionFileName ++ " for input\n") }
  else
    { sigtstpDisposition := Sigdisp.sigIgn
      stdinSource :=
        if inputRedirectionFlag then FdSource.fromFile inputRedirectionFileName
        else if backgroundFlag then FdSource.devNull
        else FdSource.inherited
      stdoutSource :=
        if outputRedirectionFlag then
          if env.canOpenWrite outputRedirectionFileName then
            FdSource.fromFile outputRedirectionFileName
          else FdSource.invalidFd
        else if backgroundFlag then FdSource.devNull
        else FdSource.inherited
      outcome :=
        if env.execOk then ChildOutcome.execReached
        else ChildOutcome.execFailedExit 1 }

/-- Embedding of struct Results (smallsh.c lines 761-764); the sig field is
the TRUE/FALSE discriminator. -/
structure result where
  code : Int
  sig : Bool
deriving DecidableEq, Repr

/-- What waitpid reported for a terminated process. -/
inductive WaitOutcome
  | exited (code : Int)
  | signaled (signum : Int)
deriving DecidableEq, Repr

/-- How the foreground wait of spawnProcess fills the Results struct
(smallsh.c lines 853-862): normal exit stores the exit code with sig FALSE,
termination by signal stores the signal number with sig TRUE. -/
def recordStatus : WaitOutcome → result
  | WaitOutcome.exited c => { sig := false, code := c }
  | WaitOutcome.signaled s => { sig := true, code := s }

/-- Embedding of the parent branch of spawnProcess (smallsh.c lines
784-865): a failed fork only prints (line 787), a background child is added
to the registry and the Results struct is untouched (lines 840-844), and
only a foreground child is waited for and its outcome stored (lines
848-862). -/
def spawnParent (procs : processes) (status : Option result) (forkResult : Int)
    (backgroundFlag : Bool) (w : WaitOutcome) : processes × Option result :=
  if forkResult = -1 then (procs, status)
  else if backgroundFlag then (processesAdd procs forkResult, status)
  else (procs, some (recordStatus w))

/-- One iteration of the dispatch loop of main (smallsh.c lines 948-998),
reduced to its effect on the registry and the Results struct: the cd,
status and comment cases leave both untouched, and a spawned command acts
through spawnParent.  For a spawn command the forkResult is the fork return
value in the parent, the flag is backgroundFlag as parseArgs left it, and w
is what waitpid would report for a foreground child. -/
inductive LoopCmd
  | cdCmd
  | statusCmd
  | commentCmd
  | spawnCmd (forkResult : Int) (backgroundFlag : Bool) (w : WaitOutcome)
deriving DecidableEq, Repr

/-- Effect of one dispatch-loop iteration on (registry, Results).  The
Option is none exactly while the Results struct, declared without an
initialiser at smallsh.c line 936, has never been written. -/
def loopStep (st : processes × Option result) : LoopCmd → processes × Option result
  | LoopCmd.spawnCmd f bg w => spawnParent st.1 st.2 f bg w
  | _ => st

/-- Run the dispatch loop from program start: fresh registry and the
never-written Results struct. -/
def runLoop (cmds : List LoopCmd) : processes × Option result :=
  cmds.foldl loopStep (createProcessArray, none)

/-- A loop iteration writes the Results struct exactly when it spawns a
foreground command and the fork succeeded. -/
def writesStatus : LoopCmd → Bool
  | LoopCmd.spawnCmd f bg _ => decide (f ≠ -1) && !bg
  | _ => false

/-- A string without adjacent dollar signs passes through
replaceDoubleDollars unchanged. -/
theorem replaceDD_no_marker (pid : List Char) (s : List Char)
    (h : hasDoubleDollar s = false) : replaceDoubleDollars pid s = s := by
  induction s using hasDoubleDollar.induct with
  | case1 => rfl
  | case2 c => rfl
  | case3 a b rest ih =>
    simp only [hasDoubleDollar, Bool.or_eq_false_iff, Bool.and_eq_false_iff] at h
    simp only [replaceDoubleDollars, Bool.and_eq_true]
    rw [if_neg]
    · rw [ih h.2]
    · intro hc
      rcases h.1 with h1 | h1 <;> simp [hc.1, hc.2] at h1

/-- On a string whose first marker occurrence follows the prefix a,
replaceDoubleDollars replaces exactly that occurrence and keeps the prefix
and the remainder intact. -/
theorem replaceDD_first (pid : List Char) (a b : List Char)
    (h : hasDoubleDollar (a ++ ['$']) = false) :
    replaceDoubleDollars pid (a ++ '$' :: '$' :: b) = a ++ pid ++ b := by
  induction a with
  | nil => simp [replaceDoubleDollars]
  | cons c a' ih =>
    cases a' with
    | nil =>
      simp only [hasDoubleDollar, List.nil_append, List.singleton_append,
        Bool.or_eq_false_iff, Bool.and_eq_false_iff] at h
      have hc : ¬(c = '$') := by
        rcases h.1 with h1 | h1
        · exact fun hcc => by simp [hcc] at h1
        · simp at h1
      simp [replaceDoubleDollars, hc]
    | cons d a'' =>
      simp only [List.cons_append, hasDoubleDollar, Bool.or_eq_false_iff,
        Bool.and_eq_false_iff] at h ⊢
      have h2 : hasDoubleDollar ((d :: a'') ++ ['$']) = false := by
        simpa using h.2
      have hcd : (c = '$' && d = '$') = false := by
        rcases h.1 with h1 | h1 <;> simp [h1]
      simp only [replaceDoubleDollars]
      rw [if_neg (by simp_all)]
      have := ih h2
      simp only [List.cons_append] at this ⊢
      rw [this]

/-- A word accepted by isWord is never the one-character ampersand token. -/
theorem isWord_ne_amp {b : List Char} (hw : isWord (some b) = true) : b ≠ ['&'] := by
  intro hb
  subst hb
  simp [isWord] at hw

/-- The background flag computed by the parse loop: it becomes the
background-allowed flag exactly when the final token is the ampersand
marker, and otherwise keeps its incoming value. -/
theorem parseArgsAux_bg (pid : Nat) (al : Bool) (ts : List (List Char)) (st : ParseState) :
    (parseArgsAux pid al ts st).2.backgroundFlag =
      if ts.getLast? = some ['&'] then al else st.backgroundFlag := by
  induction ts, st using parseArgsAux.induct pid al with
  | case1 st => simp [parseArgsAux]
  | case2 st => simp [parseArgsAux]
  | case3 st h1 => simp [parseArgsAux]
  | case4 st h1 h2 => simp [parseArgsAux]
  | case5 st h1 h2 h3 => simp [parseArgsAux, h1, h2, h3]
  | case6 a st h1 h2 h3 h4 =>
    simp [parseArgsAux, h1, h2, h3, h4]
  | case7 b rest st hw ih =>
    have hb := isWord_ne_amp hw
    cases rest with
    | nil =>
      simp [parseArgsAux, hw, List.getLast?_cons_cons]
      rw [if_neg (by simpa using hb)]
    | cons c rest2 =>
      simp [parseArgsAux, hw, List.getLast?_cons_cons]
      rw [ih]
  | case8 b rest st hw ih =>
    simp [parseArgsAux, hw, List.getLast?_cons_cons]
    rw [ih]
  | case9 b rest st hw h1 ih =>
    have hb := isWord_ne_amp hw
    cases rest with
    | nil =>
      simp [parseArgsAux, hw, h1, List.getLast?_cons_cons]
      rw [if_neg (by simpa using hb)]
    | cons c rest2 =>
      simp [parseArgsAux, hw, h1, List.getLast?_cons_cons]
      rw [ih]
  | case10 b rest st hw h1 ih =>
    simp [parseArgsAux, hw, h1, List.getLast?_cons_cons]
    rw [ih]
  | case11 b rest st h1 h2 ih =>
    simp [parseArgsAux, h1, h2, List.getLast?_cons_cons]
    rw [ih]
  | case12 b rest st h1 h2 h3 ih =>
    simp [parseArgsAux, h1, h2, h3, List.getLast?_cons_cons]
    rw [ih]
  | case13 a b rest st h1 h2 h3 h4 ih =>
    simp [parseArgsAux, h1, h2, h3, h4, List.getLast?_cons_cons]
    rw [ih]

/-- A word accepted by isWord is never the empty string. -/
theorem isWord_ne_nil {b : List Char} (hw : isWord (some b) = true) : b ≠ [] := by
  intro hb
  subst hb
  simp [isWord] at hw

/-- The one-character ampersand token is not a word. -/
theorem isWord_amp : isWord (some ['&']) = false := by decide

/-- Appending a final ampersand marker to a token sequence that does not
already end in one leaves the reduced argument vector unchanged: the marker
is consumed, not kept. -/
theorem parseArgsAux_append_amp (pid : Nat) (al : Bool) (ts : List (List Char))
    (st : ParseState) (h : ts.getLast? ≠ some ['&']) :
    (parseArgsAux pid al (ts ++ [['&']]) st).1 = (parseArgsAux pid al ts st).1 := by
  induction ts, st using parseArgsAux.induct pid al with
  | case1 st => simp [parseArgsAux]
  | case2 st => simp [parseArgsAux, isWord_amp]
  | case3 st h1 => simp [parseArgsAux, isWord_amp]
  | case4 st h1 h2 => simp [parseArgsAux]
  | case5 st h1 h2 h3 => simp at h
  | case6 a st h1 h2 h3 h4 => simp [parseArgsAux, h1, h2, h3, h4]
  | case7 b rest st hw ih =>
    cases rest with
    | nil => simp [parseArgsAux, hw]
    | cons c rest2 =>
      rw [List.getLast?_cons_cons, List.getLast?_cons_cons] at h
      simp only [List.cons_append]
      simp only [parseArgsAux, hw, if_pos rfl, if_true]
      exact ih h
  | case8 b rest st hw ih =>
    rw [List.getLast?_cons_cons] at h
    simp only [List.cons_append]
    simp [parseArgsAux, hw]
    exact ih h
  | case9 b rest st hw h1 ih =>
    cases rest with
    | nil => simp [parseArgsAux, hw, h1]
    | cons c rest2 =>
      rw [List.getLast?_cons_cons, List.getLast?_cons_cons] at h
      simp only [List.cons_append]
      simp only [parseArgsAux, hw, h1, if_pos rfl, if_true]
      exact ih h
  | case10 b rest st hw h1 ih =>
    rw [List.getLast?_cons_cons] at h
    simp only [List.cons_append]
    simp [parseArgsAux, hw, h1]
    exact ih h
  | case11 b rest st h1 h2 ih =>
    rw [List.getLast?_cons_cons] at h
    simp only [List.cons_append]
    simp [parseArgsAux, h1, h2]
    exact ih h
  | case12 b rest st h1 h2 h3 ih =>
    rw [List.getLast?_cons_cons] at h
    simp only [List.cons_append]
    simp [parseArgsAux, h1, h2, h3]
    exact ih h
  | case13 a b rest st h1 h2 h3 h4 ih =>
    rw [List.getLast?_cons_cons] at h
    simp only [List.cons_append]
    simp [parseArgsAux, h1, h2, h3, h4]
    exact ih h

/-- An empty token in the input of the parse loop survives into the reduced
argument vector: no branch of parseArgs ever drops or alters it. -/
theorem parseArgsAux_empty_mem (pid : Nat) (al : Bool) (ts : List (List Char))
    (st : ParseState) (h : [] ∈ ts) :
    [] ∈ (parseArgsAux pid al ts st).1 := by
  induction ts, st using parseArgsAux.induct pid al with
  | case1 st => simp at h
  | case2 st => simp at h
  | case3 st h1 => simp at h
  | case4 st h1 h2 => simp at h
  | case5 st h1 h2 h3 => simp at h
  | case6 a st h1 h2 h3 h4 =>
    simp only [List.mem_singleton] at h
    subst h
    simp [parseArgsAux, h1, h2, h3, h4, replaceDoubleDollars]
  | case7 b rest st hw ih =>
    have hb := isWord_ne_nil hw
    simp only [List.mem_cons] at h
    rcases h with h | h | h
    · exact absurd h.symm (by simp)
    · exact absurd h.symm hb
    · simp only [parseArgsAux, hw, if_pos rfl, if_true]
      exact ih h
  | case8 b rest st hw ih =>
    simp only [List.mem_cons] at h
    rcases h with h | h
    · exact absurd h.symm (by simp)
    · simp [parseArgsAux, hw]
      exact ih (by simpa using h)
  | case9 b rest st hw h1 ih =>
    have hb := isWord_ne_nil hw
    simp only [List.mem_cons] at h
    rcases h with h | h | h
    · exact absurd h.symm (by simp)
    · exact absurd h.symm hb
    · simp only [parseArgsAux, hw, h1, if_pos rfl, if_true, if_neg h1]
      exact ih h
  | case10 b rest st hw h1 ih =>
    simp only [List.mem_cons] at h
    rcases h with h | h
    · exact absurd h.symm (by simp)
    · simp [parseArgsAux, hw, h1]
      exact ih (by simpa using h)
  | case11 b rest st h1 h2 ih =>
    simp only [List.mem_cons] at h
    rcases h with h | h
    · exact absurd h.symm (by simp)
    · simp [parseArgsAux, h1, h2]
      exact Or.inr (ih (by simpa using h))
  | case12 b rest st h1 h2 h3 ih =>
    simp only [List.mem_cons] at h
    rcases h with h | h
    · exact absurd h.symm (by simp)
    · simp [parseArgsAux, h1, h2, h3]
      exact ih (by simpa using h)
  | case13 a b rest st h1 h2 h3 h4 ih =>
    simp only [List.mem_cons] at h
    rcases h with h | h
    · subst h
      simp [parseArgsAux, h1, h2, h3, h4, replaceDoubleDollars]
    · simp [parseArgsAux, h1, h2, h3, h4]
      exact Or.inr (ih (by simpa using h))

/-- On a token sequence containing no redirection operator, not ending in
the ampersand marker, and whose tokens hold no adjacent dollar signs, the
parse loop is the identity: the vector passes through and the state is
untouched. -/
theorem parseArgsAux_id (pid : Nat) (al : Bool) (ts : List (List Char))
    (st : ParseState) (hlt : ['<'] ∉ ts) (hgt : ['>'] ∉ ts)
    (hamp : ts.getLast? ≠ some ['&'])
    (hdd : ∀ t ∈ ts, hasDoubleDollar t = false) :
    parseArgsAux pid al ts st = (ts, st) := by
  induction ts, st using parseArgsAux.induct pid al with
  | case1 st => simp [parseArgsAux]
  | case2 st => simp at hlt
  | case3 st h1 => simp at hgt
  | case4 st h1 h2 => exact absurd (hdd ['$', '$'] (by simp)) (by decide)
  | case5 st h1 h2 h3 => simp at hamp
  | case6 a st h1 h2 h3 h4 =>
    have ha := hdd a (by simp)
    simp [parseArgsAux, h1, h2, h3, h4, replaceDD_no_marker _ _ ha]
  | case7 b rest st hw ih => simp at hlt
  | case8 b rest st hw ih => simp at hlt
  | case9 b rest st hw h1 ih => simp at hgt
  | case10 b rest st hw h1 ih => simp at hgt
  | case11 b rest st h1 h2 ih => exact absurd (hdd ['$', '$'] (by simp)) (by decide)
  | case12 b rest st h1 h2 h3 ih =>
    rw [List.getLast?_cons_cons] at hamp
    simp only [List.mem_cons, not_or] at hlt hgt
    have hrec := ih (by simp [hlt.2.1, hlt.2.2]) (by simp [hgt.2.1, hgt.2.2]) hamp
      (fun t ht => hdd t (by simp [ht]))
    simp [parseArgsAux, h1, h2, h3, hrec]
  | case13 a b rest st h1 h2 h3 h4 ih =>
    rw [List.getLast?_cons_cons] at hamp
    simp only [List.mem_cons, not_or] at hlt hgt
    have ha := hdd a (by simp)
    have hrec := ih (by simp [hlt.2.1, hlt.2.2]) (by simp [hgt.2.1, hgt.2.2]) hamp
      (fun t ht => hdd t (by simp [ht]))
    simp [parseArgsAux, h1, h2, h3, h4, replaceDD_no_marker _ _ ha, hrec]

/-- The number of words getArgs produces is the number of separator
characters in the line plus one: every separator ends one word (empty words
included) and the final word is always stored. -/
theorem getArgsAux_length (line : List Char) :
    ∀ curr : List Char, (getArgsAux line curr).length = line.countP isSep + 1 := by
  induction line with
  | nil => intro curr; simp [getArgsAux]
  | cons c rest ih =>
    intro curr
    by_cases h : isSep c = true <;>
      simp [getArgsAux, h, ih, List.countP_cons]

/-- Scanning a block of nonzero entries followed by a zero finds the first
zero right after the block. -/
theorem findSlot_zero (live : List Int) (rest : List Int)
    (h : ∀ x ∈ live, x ≠ 0) :
    findSlot (fun x => x == 0) (live ++ 0 :: rest) = some live.length := by
  induction live with
  | nil => simp [findSlot]
  | cons y l ih =>
    have hy : (y == 0) = false := by simpa using h y (by simp)
    simp only [List.cons_append, findSlot, hy, Bool.false_eq_true, if_false,
      List.length_cons, List.append_eq]
    rw [ih (fun x hx => h x (by simp [hx]))]
    rfl

/-- Setting the slot just after a block stores into the head of the tail. -/
theorem set_append_len {α : Type} (l1 l2 : List α) (v : α) :
    (l1 ++ l2).set l1.length v = l1 ++ l2.set 0 v := by
  induction l1 with
  | nil => simp
  | cons y l ih => simp [List.set, ih]

/-- Taking past a block takes the block and continues in the tail. -/
theorem take_append_len {α : Type} (l1 l2 : List α) (k : Nat) :
    (l1 ++ l2).take (l1.length + k) = l1 ++ l2.take k := by
  induction l1 with
  | nil => simp
  | cons y l ih =>
    simp only [List.cons_append, List.length_cons]
    rw [Nat.add_right_comm, List.take_succ_cons, ih]

/-- Scanning for a value present in the leading block finds it there, and
erasing the found index erases the first occurrence of the value from the
block while leaving the tail alone. -/
theorem findSlot_found (val : Int) (live rest : List Int) (hmem : val ∈ live) :
    ∃ i, findSlot (fun x => x == val) (live ++ rest) = some i ∧
      (live ++ rest).eraseIdx i = live.erase val ++ rest ∧
      (live.erase val).length + 1 = live.length ∧
      ∀ x ∈ live.erase val, x ∈ live := by
  induction live with
  | nil => simp at hmem
  | cons y l ih =>
    by_cases hy : y = val
    · refine ⟨0, ?_, ?_, ?_, ?_⟩
      · simp [findSlot, hy]
      · subst hy
        simp [List.erase_cons_head]
      · subst hy
        simp [List.erase_cons_head]
      · subst hy
        simp only [List.erase_cons_head]
        intro x hx
        simp [hx]
    · have hmem' : val ∈ l := by
        rcases List.mem_cons.mp hmem with h | h
        · exact absurd h.symm hy
        · exact h
      obtain ⟨i, hfind, herase, hlen, hsub⟩ := ih hmem'
      have hyb : (y == val) = false := by simpa using hy
      have her : (y :: l).erase val = y :: l.erase val :=
        List.erase_cons_tail (by simpa using hyb)
      refine ⟨i + 1, ?_, ?_, ?_, ?_⟩
      · simp only [List.cons_append, findSlot, hyb, Bool.false_eq_true, if_false,
          List.append_eq, hfind]
        rfl
      · simp only [List.cons_append, List.eraseIdx_cons_succ, herase, her]
      · simp [her]
        omega
      · rw [her]
        intro x hx
        rcases List.mem_cons.mp hx with h | h
        · simp [h]
        · simp [hsub x h]

/-- The fresh registry satisfies the registry invariant. -/
theorem RegistryInv_create : RegistryInv createProcessArray :=
  ⟨[], rfl, rfl, by decide, by decide, by simp⟩

/-- Under the invariant the enumerated slots are exactly the live block. -/
theorem enumerateJobs_eq (p : processes) (live : List Int)
    (harr : p.array = live ++ List.replicate (p.capacity - p.size) 0)
    (hlen : live.length = p.size) : enumerateJobs p = live := by
  unfold enumerateJobs
  rw [harr, ← hlen]
  simpa using take_append_len live (List.replicate (p.capacity - p.size) 0) 0

/-- Adding a nonzero pid preserves the registry invariant, appends the pid
to the enumeration, and doubles the capacity exactly when the array was
full. -/
theorem processesAdd_spec (p : processes) (v : Int) (hInv : RegistryInv p)
    (hv : v ≠ 0) :
    RegistryInv (processesAdd p v) ∧
    enumerateJobs (processesAdd p v) = enumerateJobs p ++ [v] ∧
    (p.size = p.capacity → (processesAdd p v).capacity = 2 * p.capacity) := by
  obtain ⟨live, harr, hlen, hle, hpos, hnz⟩ := hInv
  have henum : enumerateJobs p = live := enumerateJobs_eq p live harr hlen
  by_cases hfull : p.capacity = p.size
  · -- the array is full: live fills it, so doubling happens first
    have hm : p.capacity - p.size = 0 := by omega
    have harr1 : p.array = live := by
      rw [harr, hm]
      simp
    have hclen : live.length = p.capacity := by omega
    obtain ⟨k, hk⟩ : ∃ k, p.capacity = k + 1 := ⟨p.capacity - 1, by omega⟩
    have hdarr : (doubleCapacity p).array = live ++ (0 : Int) :: List.replicate k 0 := by
      show p.array.take p.capacity ++ List.replicate p.capacity 0 = _
      rw [harr1, show live.take p.capacity = live from by rw [← hclen, List.take_length],
        hk, List.replicate_succ]
    have hzarr :
        zeroFrom (live ++ (0 : Int) :: List.replicate k 0) p.size =
          live ++ (0 : Int) :: List.replicate k 0 := by
      unfold zeroFrom
      have h1 : (live ++ (0 : Int) :: List.replicate k 0).take p.size = live := by
        rw [← hlen]
        simpa using take_append_len live ((0 : Int) :: List.replicate k 0) 0
      have h2 : (live ++ (0 : Int) :: List.replicate k 0).length - p.size = k + 1 := by
        simp [List.length_append, hlen]
      rw [h1, h2, List.replicate_succ]
    have hfind :
        findSlot (fun x => x == 0) (live ++ (0 : Int) :: List.replicate k 0) =
          some p.size := by
      rw [findSlot_zero live _ hnz, hlen]
    have hset : (live ++ (0 : Int) :: List.replicate k 0).set p.size v =
        live ++ v :: List.replicate k 0 := by
      rw [← hlen, set_append_len]
      rfl
    have hadd : processesAdd p v =
        { capacity := p.capacity * 2, size := p.size + 1,
          array := live ++ v :: List.replicate k 0 } := by
      unfold processesAdd
      rw [if_pos hfull]
      simp only [hdarr, show (doubleCapacity p).size = p.size from rfl,
        show (doubleCapacity p).capacity = p.capacity * 2 from rfl, hzarr]
      split
      · rename_i i heq
        rw [hfind] at heq
        injection heq with h
        subst h
        rw [hset]
      · rename_i heq
        rw [hfind] at heq
        simp at heq
    refine ⟨⟨live ++ [v], ?_, ?_, ?_, ?_, ?_⟩, ?_, ?_⟩
    · rw [hadd]
      show live ++ v :: List.replicate k 0 =
        (live ++ [v]) ++ List.replicate (p.capacity * 2 - (p.size + 1)) 0
      have hkk : p.capacity * 2 - (p.size + 1) = k := by omega
      rw [hkk]
      simp
    · rw [hadd]
      simp [hlen]
    · rw [hadd]
      show p.size + 1 ≤ p.capacity * 2
      omega
    · rw [hadd]
      show 0 < p.capacity * 2
      omega
    · intro x hx
      rcases List.mem_append.mp hx with h | h
      · exact hnz x h
      · simp at h
        subst h
        exact hv
    · rw [hadd, henum]
      show (live ++ v :: List.replicate k 0).take (p.size + 1) = live ++ [v]
      rw [← hlen, take_append_len live (v :: List.replicate k 0) 1]
      rfl
    · intro _
      rw [hadd]
      show p.capacity * 2 = 2 * p.capacity
      exact Nat.mul_comm _ _
  · -- room remains: no doubling, the value lands right after the live block
    obtain ⟨k, hk⟩ : ∃ k, p.capacity - p.size = k + 1 := ⟨p.capacity - p.size - 1, by omega⟩
    have harr1 : p.array = live ++ (0 : Int) :: List.replicate k 0 := by
      rw [harr, hk, List.replicate_succ]
    have hfind : findSlot (fun x => x == 0) p.array = some p.size := by
      rw [harr1, findSlot_zero live _ hnz, hlen]
    have hset : p.array.set p.size v = live ++ v :: List.replicate k 0 := by
      rw [harr1, ← hlen, set_append_len]
      rfl
    have hadd : processesAdd p v =
        { capacity := p.capacity, size := p.size + 1,
          array := live ++ v :: List.replicate k 0 } := by
      unfold processesAdd
      rw [if_neg hfull]
      show (match findSlot (fun x => x == 0) p.array with
        | some i => processes.mk p.capacity (p.size + 1) (p.array.set i v)
        | none => p) =
        { capacity := p.capacity, size := p.size + 1,
          array := live ++ v :: List.replicate k 0 }
      split
      · rename_i i heq
        rw [hfind] at heq
        injection heq with h
        subst h
        rw [hset]
      · rename_i heq
        rw [hfind] at heq
        simp at heq
    refine ⟨⟨live ++ [v], ?_, ?_, ?_, ?_, ?_⟩, ?_, ?_⟩
    · rw [hadd]
      show live ++ v :: List.replicate k 0 =
        (live ++ [v]) ++ List.replicate (p.capacity - (p.size + 1)) 0
      have hkk : p.capacity - (p.size + 1) = k := by omega
      rw [hkk]
      simp
    · rw [hadd]
      simp [hlen]
    · rw [hadd]
      show p.size + 1 ≤ p.capacity
      omega
    · rw [hadd]
      show 0 < p.capacity
      omega
    · intro x hx
      rcases List.mem_append.mp hx with h | h
      · exact hnz x h
      · simp at h
        subst h
        exact hv
    · rw [hadd, henum]
      show (live ++ v :: List.replicate k 0).take (p.size + 1) = live ++ [v]
      rw [← hlen, take_append_len live (v :: List.replicate k 0) 1]
      rfl
    · intro h
      exact absurd h.symm hfull

/-- Removing a pid that is currently enumerable preserves the registry
invariant and erases the first occurrence of that pid from the
enumeration. -/
theorem processesRemove_spec (p : processes) (val : Int) (hInv : RegistryInv p)
    (hmem : val ∈ enumerateJobs p) :
    RegistryInv (processesRemove p val) ∧
    enumerateJobs (processesRemove p val) = (enumerateJobs p).erase val := by
  obtain ⟨live, harr, hlen, hle, hpos, hnz⟩ := hInv
  have henum : enumerateJobs p = live := enumerateJobs_eq p live harr hlen
  rw [henum] at hmem
  obtain ⟨i, hfind, herase, helen, hsub⟩ :=
    findSlot_found val live (List.replicate (p.capacity - p.size) 0) hmem
  have hsize : 1 ≤ p.size := by omega
  have hrem : processesRemove p val =
      { capacity := p.capacity, size := p.size - 1,
        array := live.erase val ++ List.replicate (p.capacity - p.size + 1) 0 } := by
    unfold processesRemove
    show (match findSlot (fun x => x == val) p.array with
      | some i => processes.mk p.capacity (p.size - 1) (p.array.eraseIdx i ++ [0])
      | none => p) =
      { capacity := p.capacity, size := p.size - 1,
        array := live.erase val ++ List.replicate (p.capacity - p.size + 1) 0 }
    rw [harr]
    rw [hfind]
    have heq : (live ++ List.replicate (p.capacity - p.size) 0).eraseIdx i ++ [(0 : Int)] =
        live.erase val ++ List.replicate (p.capacity - p.size + 1) 0 := by
      rw [herase, List.append_assoc]
      rw [show List.replicate (p.capacity - p.size) (0 : Int) ++ [0] =
        List.replicate (p.capacity - p.size + 1) 0 from (List.replicate_succ' _ _).symm]
    show processes.mk p.capacity (p.size - 1)
        ((live ++ List.replicate (p.capacity - p.size) 0).eraseIdx i ++ [0]) =
      { capacity := p.capacity, size := p.size - 1,
        array := live.erase val ++ List.replicate (p.capacity - p.size + 1) 0 }
    rw [heq]
  refine ⟨⟨live.erase val, ?_, ?_, ?_, ?_, ?_⟩, ?_⟩
  · rw [hrem]
    show live.erase val ++ List.replicate (p.capacity - p.size + 1) 0 =
      live.erase val ++ List.replicate (p.capacity - (p.size - 1)) 0
    have : p.capacity - p.size + 1 = p.capacity - (p.size - 1) := by omega
    rw [this]
  · rw [hrem]
    show (live.erase val).length = p.size - 1
    omega
  · rw [hrem]
    show p.size - 1 ≤ p.capacity
    omega
  · rw [hrem]
    show 0 < p.capacity
    omega
  · intro x hx
    exact hnz x (hsub x hx)
  · rw [hrem, henum]
    show (live.erase val ++ List.replicate (p.capacity - p.size + 1) 0).take (p.size - 1) =
      live.erase val
    rw [show p.size - 1 = (live.erase val).length from by omega]
    simpa using take_append_len (live.erase val) _ 0

/-- Every state reached from an invariant-satisfying registry by a legal
operation sequence satisfies the invariant. -/
theorem applyOps_inv (ops : List RegOp) (p : processes) (hInv : RegistryInv p)
    (h : legalOps p ops = true) : RegistryInv (applyOps p ops) := by
  induction ops generalizing p with
  | nil => exact hInv
  | cons op rest ih =>
    cases op with
    | addOp v =>
      simp only [legalOps, Bool.and_eq_true] at h
      have hv : v ≠ 0 := by simpa using h.1.1
      exact ih (processesAdd p v) (processesAdd_spec p v hInv hv).1 h.2
    | removeOp v =>
      simp only [legalOps, Bool.and_eq_true] at h
      have hv : v ∈ enumerateJobs p := by simpa using h.1
      exact ih (processesRemove p v) (processesRemove_spec p v hInv hv).1 h.2

/-- Legality of an operation sequence restricts to every prefix. -/
theorem legalOps_take (ops : List RegOp) (p : processes) (n : Nat)
    (h : legalOps p ops = true) : legalOps p (ops.take n) = true := by
  induction ops generalizing p n with
  | nil => simp [legalOps]
  | cons op rest ih =>
    cases n with
    | zero => simp [legalOps]
    | succ m =>
      cases op with
      | addOp v =>
        simp only [legalOps, Bool.and_eq_true] at h
        simp only [List.take_succ_cons, legalOps, Bool.and_eq_true]
        exact ⟨h.1, ih (processesAdd p v) m h.2⟩
      | removeOp v =>
        simp only [legalOps, Bool.and_eq_true] at h
        simp only [List.take_succ_cons, legalOps, Bool.and_eq_true]
        exact ⟨h.1, ih (processesRemove p v) m h.2⟩

/-- Folding dispatch-loop iterations that never write the Results struct
leaves it in the never-written state, from any registry. -/
theorem foldl_loopStep_none (cmds : List LoopCmd) (procs : processes)
    (h : ∀ c ∈ cmds, writesStatus c = false) :
    (cmds.foldl loopStep (procs, none)).2 = none := by
  induction cmds generalizing procs with
  | nil => rfl
  | cons c rest ih =>
    have hc := h c (by simp)
    have hrest : ∀ x ∈ rest, writesStatus x = false := fun x hx => h x (by simp [hx])
    cases c with
    | cdCmd => exact ih procs hrest
    | statusCmd => exact ih procs hrest
    | commentCmd => exact ih procs hrest
    | spawnCmd f bg w =>
      by_cases hf : f = -1
      · simp only [List.foldl_cons, loopStep, spawnParent, if_pos hf]
        exact ih procs hrest
      · have hbg : bg = true := by
          simp only [writesStatus, Bool.and_eq_false_iff] at hc
          rcases hc with h1 | h1
          · exact absurd (by simpa using h1) hf
          · simpa using h1
        simp only [List.foldl_cons, loopStep, spawnParent, if_neg hf, hbg, if_pos rfl,
          if_true]
        exact ih (processesAdd procs f) hrest

/-- A list extended by one final element has that element as its last. -/
theorem getLast?_append_singleton {α : Type} (l : List α) (a : α) :
    (l ++ [a]).getLast? = some a := by
  induction l with
  | nil => rfl
  | cons y rest ih =>
    cases rest with
    | nil => rfl
    | cons z rest2 => simpa [List.getLast?_cons_cons] using ih

/-- C1 counterexample: in the child branch of spawnProcess the stop-signal
disposition installed before program replacement is ignore, not the default
the claim asserts (smallsh.c line 793 calls signal(SIGTSTP, SIG_IGN)). -/
theorem C1_counterexample :
    (childRun (ChildEnv.mk (fun _ => true) (fun _ => true) true)
        false false false "" "").sigtstpDisposition = Sigdisp.sigIgn ∧
    Sigdisp.sigIgn ≠ Sigdisp.sigDfl :=
  ⟨rfl, by decide⟩

/-- C1 (amended): for every spawned command the child sets handling of the
stop signal SIGTSTP to ignore before program replacement, so spawned
programs start with the stop signal ignored rather than with default
handling. -/
theorem C1_amended (env : ChildEnv) (iFlag oFlag bFlag : Bool)
    (inName outName : String) :
    (childRun env iFlag oFlag bFlag inName outName).sigtstpDisposition =
      Sigdisp.sigIgn := by
  unfold childRun
  split <;> rfl

/-- Environment in which every write-open fails but read-opens and exec
succeed. -/
def c2FailWriteEnv : ChildEnv := ChildEnv.mk (fun _ => true) (fun _ => false) true

/-- C2 counterexample: with the output-redirection flag set and the
write/create/truncate open failing, the child does not exit early with an
error; it reaches program replacement, with standard output left on the
invalid descriptor of the failed open. -/
theorem C2_counterexample :
    c2FailWriteEnv.canOpenWrite "badout" = false ∧
    (childRun c2FailWriteEnv false true false "" "badout").outcome =
      ChildOutcome.execReached ∧
    (childRun c2FailWriteEnv false true false "" "badout").stdoutSource =
      FdSource.invalidFd :=
  ⟨rfl, rfl, rfl⟩

/-- C2 (amended): an input-open failure is detected: the child reports the
file and exits with status 1 before program replacement; an output-open
failure is not checked at all: the child keeps going and reaches program
replacement with the failed descriptor. -/
theorem C2_amended (env : ChildEnv) (inName outName : String)
    (hw : env.canOpenWrite outName = false) (hx : env.execOk = true)
    (hr : env.canOpenRead inName = false) :
    (childRun env false true false inName outName).outcome =
      ChildOutcome.execReached ∧
    (childRun env false true false inName outName).stdoutSource =
      FdSource.invalidFd ∧
    (childRun env true false false inName outName).outcome =
      ChildOutcome.earlyExit 1 ("cannot open " ++ inName ++ " for input\n") := by
  refine ⟨?_, ?_, ?_⟩ <;> simp [childRun, hw, hx, hr]

/-- Environment in which every open fails but exec succeeds. -/
def c2WitnessEnv : ChildEnv := ChildEnv.mk (fun _ => false) (fun _ => false) true

/-- C2 witness: the amended statement at a concrete environment. -/
theorem C2_amended_witness :
    (c2WitnessEnv.canOpenWrite "outfile" = false ∧ c2WitnessEnv.execOk = true ∧
      c2WitnessEnv.canOpenRead "infile" = false) ∧
    ((childRun c2WitnessEnv false true false "infile" "outfile").outcome =
        ChildOutcome.execReached ∧
      (childRun c2WitnessEnv false true false "infile" "outfile").stdoutSource =
        FdSource.invalidFd ∧
      (childRun c2WitnessEnv true false false "infile" "outfile").outcome =
        ChildOutcome.earlyExit 1 ("cannot open " ++ "infile" ++ " for input\n")) :=
  ⟨⟨rfl, rfl, rfl⟩, C2_amended c2WitnessEnv "infile" "outfile" rfl rfl rfl⟩

/-- C3 counterexample: on the token of four dollar signs, with pid 42, the
parse replaces only the first marker occurrence, leaving a second marker in
the output, while replacing every occurrence (the spec-side function) would
yield a different string; and a marker inside a redirection target is
stored verbatim, never replaced. -/
theorem C3_counterexample :
    (parseArgs 42 true [['$', '$', '$', '$']]).1 = [['4', '2', '$', '$']] ∧
    specReplaceAll (pidChars 42) ['$', '$', '$', '$'] = ['4', '2', '4', '2'] ∧
    (['4', '2', '$', '$'] : List Char) ≠ ['4', '2', '4', '2'] ∧
    (parseArgs 42 true [['<'], ['f', '$', '$']]).2.inputRedirection =
      some ['f', '$', '$'] := by
  refine ⟨?_, ?_, ?_, ?_⟩ <;> decide

/-- C3 (amended): within one ordinary token only the first occurrence of
the marker is replaced by the pid string, with the prefix before it and the
remainder after it unaltered; a token without the marker is unaltered; and
a redirection target is stored verbatim, marker included. -/
theorem C3_amended (pid : Nat) (al : Bool) (a b s t : List Char)
    (ha : hasDoubleDollar (a ++ ['$']) = false)
    (hs : hasDoubleDollar s = false)
    (ht : isWord (some t) = true) :
    replaceDoubleDollars (pidChars pid) (a ++ '$' :: '$' :: b) =
      a ++ pidChars pid ++ b ∧
    replaceDoubleDollars (pidChars pid) s = s ∧
    (parseArgs pid al [['<'], t]).2.inputRedirection = some t := by
  refine ⟨replaceDD_first _ a b ha, replaceDD_no_marker _ s hs, ?_⟩
  simp [parseArgs, parseArgsAux, ht, initParseState]

/-- C3 witness: the amended statement at pid 7, prefix x, remainder holding
a second marker, a marker-free token, and a redirection target holding a
marker. -/
theorem C3_amended_witness :
    (hasDoubleDollar (['x'] ++ ['$']) = false ∧
      hasDoubleDollar ['a', 'b'] = false ∧
      isWord (some ['f', '$', '$']) = true) ∧
    (replaceDoubleDollars (pidChars 7) (['x'] ++ '$' :: '$' :: ['$', '$']) =
        ['x'] ++ pidChars 7 ++ ['$', '$'] ∧
      replaceDoubleDollars (pidChars 7) ['a', 'b'] = ['a', 'b'] ∧
      (parseArgs 7 true [['<'], ['f', '$', '$']]).2.inputRedirection =
        some ['f', '$', '$']) :=
  ⟨⟨by decide, by decide, by decide⟩,
    C3_amended 7 true ['x'] ['$', '$'] ['a', 'b'] ['f', '$', '$']
      (by decide) (by decide) (by decide)⟩

/-- C4 counterexample: with background execution disallowed and the
ampersand marker last, the background flag is false as the claim says, but
the marker does not remain in the reduced argument vector: it is consumed. -/
theorem C4_counterexample :
    (parseArgs 42 false ["sleep".toList, "5".toList, ['&']]).2.backgroundFlag =
      false ∧
    (parseArgs 42 false ["sleep".toList, "5".toList, ['&']]).1 =
      ["sleep".toList, "5".toList] ∧
    ['&'] ∉ (parseArgs 42 false ["sleep".toList, "5".toList, ['&']]).1 := by
  refine ⟨?_, ?_, ?_⟩ <;> decide

/-- C4 (amended): the background flag is true iff the ampersand marker is
the last token and background execution is currently allowed; a final
marker is consumed from the reduced argument vector whether or not it takes
effect; without a final marker the flag is false. -/
theorem C4_amended (pid : Nat) (al : Bool) (ts : List (List Char))
    (h : ts.getLast? ≠ some ['&']) :
    (parseArgs pid al (ts ++ [['&']])).2.backgroundFlag = al ∧
    (parseArgs pid al (ts ++ [['&']])).1 = (parseArgs pid al ts).1 ∧
    (parseArgs pid al ts).2.backgroundFlag = false := by
  refine ⟨?_, parseArgsAux_append_amp pid al ts initParseState h, ?_⟩
  · show (parseArgsAux pid al (ts ++ [['&']]) initParseState).2.backgroundFlag = al
    rw [parseArgsAux_bg, if_pos (getLast?_append_singleton ts ['&'])]
  · show (parseArgsAux pid al ts initParseState).2.backgroundFlag = false
    rw [parseArgsAux_bg, if_neg h]
    rfl

/-- C4 witness: the amended statement at a concrete two-token command. -/
theorem C4_amended_witness :
    ((["sleep".toList, "5".toList] : List (List Char)).getLast? ≠ some ['&']) ∧
    ((parseArgs 9 true (["sleep".toList, "5".toList] ++ [['&']])).2.backgroundFlag =
        true ∧
      (parseArgs 9 true (["sleep".toList, "5".toList] ++ [['&']])).1 =
        (parseArgs 9 true ["sleep".toList, "5".toList]).1 ∧
      (parseArgs 9 true ["sleep".toList, "5".toList]).2.backgroundFlag = false) :=
  ⟨by decide, C4_amended 9 true ["sleep".toList, "5".toList] (by decide)⟩

/-- C5 counterexample: on a line with two adjacent separators the tokenizer
emits an empty token between the words, that empty token survives the parse
into the reduced argument vector, and the result differs from what
splitting on runs would give. -/
theorem C5_counterexample :
    getArgs "a  b".toList = [['a'], [], ['b']] ∧
    (parseArgs 42 true [['a'], [], ['b']]).1 = [['a'], [], ['b']] ∧
    ([['a'], [], ['b']] : List (List Char)) ≠ [['a'], ['b']] := by
  refine ⟨?_, ?_, ?_⟩ <;> decide

/-- C5 (amended): the tokenizer splits at every single separator character,
producing separator-count-plus-one tokens (so each extra separator in a run
contributes an empty token), and an empty token in the parse input survives
into the reduced argument vector. -/
theorem C5_amended (line : List Char) (pid : Nat) (al : Bool)
    (ts : List (List Char)) (h : [] ∈ ts) :
    (getArgs line).length = line.countP isSep + 1 ∧
    [] ∈ (parseArgs pid al ts).1 :=
  ⟨getArgsAux_length line [], parseArgsAux_empty_mem pid al ts initParseState h⟩

/-- C5 witness: the amended statement at a concrete line and token list. -/
theorem C5_amended_witness :
    ([] ∈ ([[], ['x']] : List (List Char))) ∧
    ((getArgs "a b".toList).length = "a b".toList.countP isSep + 1 ∧
      [] ∈ (parseArgs 3 true [[], ['x']]).1) :=
  ⟨by decide, C5_amended "a b".toList 3 true [[], ['x']] (by decide)⟩

/-- C6: from a quiescent state (no pending deferred notification), a
suspend signal arriving with no foreground job blocking emits exactly one
notification immediately and the next prompt emits none; a suspend signal
arriving while a foreground job blocks emits nothing in the handler, the
next prompt emits exactly one deferred notification, and the prompt after
that emits none. -/
theorem C6_notifications (s : ShellState)
    (h : s.previous_background_allowed = s.background_allowed) :
    (s.foregroundProcessRunning = false →
      (shellCatchSIGTSTP s).2.length = 1 ∧
      (displayBGMessage (shellCatchSIGTSTP s).1).2 = []) ∧
    (s.foregroundProcessRunning = true →
      (shellCatchSIGTSTP s).2 = [] ∧
      (displayBGMessage (shellCatchSIGTSTP s).1).2.length = 1 ∧
      (displayBGMessage (displayBGMessage (shellCatchSIGTSTP s).1).1).2 = []) := by
  obtain ⟨bg, prev, fg⟩ := s
  cases bg <;> cases prev <;> cases fg <;>
    first
      | exact absurd h (by decide)
      | decide

/-- C6 witness: the statement at the state with background allowed, flags
in sync, and a foreground job blocking. -/
theorem C6_notifications_witness :
    ((ShellState.mk true true true).previous_background_allowed =
      (ShellState.mk true true true).background_allowed) ∧
    (((ShellState.mk true true true).foregroundProcessRunning = false →
        (shellCatchSIGTSTP (ShellState.mk true true true)).2.length = 1 ∧
        (displayBGMessage (shellCatchSIGTSTP (ShellState.mk true true true)).1).2 = []) ∧
      ((ShellState.mk true true true).foregroundProcessRunning = true →
        (shellCatchSIGTSTP (ShellState.mk true true true)).2 = [] ∧
        (displayBGMessage
            (shellCatchSIGTSTP (ShellState.mk true true true)).1).2.length = 1 ∧
        (displayBGMessage
            (displayBGMessage
              (shellCatchSIGTSTP (ShellState.mk true true true)).1).1).2 = [])) :=
  ⟨rfl, C6_notifications (ShellState.mk true true true) rfl⟩

/-- A registry filled to capacity with ten distinct nonzero pids. -/
def regFull : processes :=
  processes.mk 10 10 [1, 2, 3, 4, 5, 6, 7, 8, 9, 10]

/-- The full concrete registry satisfies the registry invariant. -/
theorem regFull_inv : RegistryInv regFull :=
  ⟨[1, 2, 3, 4, 5, 6, 7, 8, 9, 10], by simp [regFull], rfl, by decide, by decide,
    by decide⟩

/-- C7: from the empty registry, adding two distinct nonzero pids and
removing the first leaves exactly the second enumerable; and whenever an
add hits a full registry the capacity exactly doubles and every previously
enumerable entry stays enumerable. -/
theorem C7_registry (p1 p2 : Int) (h1 : p1 ≠ 0) (h2 : p2 ≠ 0) (h12 : p1 ≠ p2)
    (q : processes) (hq : RegistryInv q) (hqfull : q.size = q.capacity)
    (v : Int) (hv : v ≠ 0) :
    enumerateJobs
        (processesRemove (processesAdd (processesAdd createProcessArray p1) p2) p1) =
      [p2] ∧
    (processesAdd q v).capacity = 2 * q.capacity ∧
    ∀ x ∈ enumerateJobs q, x ∈ enumerateJobs (processesAdd q v) := by
  obtain ⟨hi1, he1, -⟩ := processesAdd_spec createProcessArray p1 RegistryInv_create h1
  obtain ⟨hi2, he2, -⟩ := processesAdd_spec _ p2 hi1 h2
  have henum2 :
      enumerateJobs (processesAdd (processesAdd createProcessArray p1) p2) =
        [p1, p2] := by
    rw [he2, he1]
    rfl
  have hmem :
      p1 ∈ enumerateJobs (processesAdd (processesAdd createProcessArray p1) p2) := by
    rw [henum2]
    simp
  obtain ⟨-, he3⟩ := processesRemove_spec _ p1 hi2 hmem
  refine ⟨?_, ?_, ?_⟩
  · rw [he3, henum2, List.erase_cons_head]
  · exact (processesAdd_spec q v hq hv).2.2 hqfull
  · intro x hx
    rw [(processesAdd_spec q v hq hv).2.1]
    exact List.mem_append_left _ hx

/-- C7 witness: the statement at pids 5 and 7 and at the concrete full
registry with a new pid 11. -/
theorem C7_registry_witness :
    ((5 : Int) ≠ 0 ∧ (7 : Int) ≠ 0 ∧ (5 : Int) ≠ 7 ∧ RegistryInv regFull ∧
      regFull.size = regFull.capacity ∧ (11 : Int) ≠ 0) ∧
    (enumerateJobs
        (processesRemove (processesAdd (processesAdd createProcessArray 5) 7) 5) =
      [7] ∧
      (processesAdd regFull 11).capacity = 2 * regFull.capacity ∧
      ∀ x ∈ enumerateJobs regFull, x ∈ enumerateJobs (processesAdd regFull 11)) :=
  ⟨⟨by decide, by decide, by decide, regFull_inv, rfl, by decide⟩,
    C7_registry 5 7 (by decide) (by decide) (by decide) regFull regFull_inv rfl 11
      (by decide)⟩

/-- C8: after every prefix of a legal operation sequence from the fresh
registry, the live pids form a contiguous nonzero prefix of the array of
length exactly size, with every later slot zero, so enumerating the first
size slots meets no gap and visits every live entry. -/
theorem C8_registry_invariant (ops : List RegOp) (n : Nat)
    (h : legalOps createProcessArray ops = true) :
    RegistryInv (applyOps createProcessArray (ops.take n)) ∧
    (∀ x ∈ enumerateJobs (applyOps createProcessArray (ops.take n)), x ≠ 0) ∧
    (enumerateJobs (applyOps createProcessArray (ops.take n))).length =
      (applyOps createProcessArray (ops.take n)).size ∧
    (applyOps createProcessArray (ops.take n)).array =
      enumerateJobs (applyOps createProcessArray (ops.take n)) ++
        List.replicate
          ((applyOps createProcessArray (ops.take n)).capacity -
            (applyOps createProcessArray (ops.take n)).size) 0 := by
  have hinv := applyOps_inv (ops.take n) createProcessArray RegistryInv_create
    (legalOps_take ops createProcessArray n h)
  obtain ⟨live, harr, hlen, hle, hpos, hnz⟩ := hinv
  have henum := enumerateJobs_eq _ live harr hlen
  refine ⟨⟨live, harr, hlen, hle, hpos, hnz⟩, ?_, ?_, ?_⟩
  · rw [henum]
    exact hnz
  · rw [henum, hlen]
  · rw [henum]
    exact harr

/-- C8 witness: the statement after two of the three operations add 5,
add 7, remove 5. -/
theorem C8_registry_invariant_witness :
    (legalOps createProcessArray
        [RegOp.addOp 5, RegOp.addOp 7, RegOp.removeOp 5] = true) ∧
    (RegistryInv (applyOps createProcessArray
        ([RegOp.addOp 5, RegOp.addOp 7, RegOp.removeOp 5].take 2)) ∧
      (∀ x ∈ enumerateJobs (applyOps createProcessArray
          ([RegOp.addOp 5, RegOp.addOp 7, RegOp.removeOp 5].take 2)), x ≠ 0) ∧
      (enumerateJobs (applyOps createProcessArray
          ([RegOp.addOp 5, RegOp.addOp 7, RegOp.removeOp 5].take 2))).length =
        (applyOps createProcessArray
          ([RegOp.addOp 5, RegOp.addOp 7, RegOp.removeOp 5].take 2)).size ∧
      (applyOps createProcessArray
          ([RegOp.addOp 5, RegOp.addOp 7, RegOp.removeOp 5].take 2)).array =
        enumerateJobs (applyOps createProcessArray
            ([RegOp.addOp 5, RegOp.addOp 7, RegOp.removeOp 5].take 2)) ++
          List.replicate
            ((applyOps createProcessArray
                ([RegOp.addOp 5, RegOp.addOp 7, RegOp.removeOp 5].take 2)).capacity -
              (applyOps createProcessArray
                ([RegOp.addOp 5, RegOp.addOp 7, RegOp.removeOp 5].take 2)).size) 0) :=
  ⟨by decide,
    C8_registry_invariant [RegOp.addOp 5, RegOp.addOp 7, RegOp.removeOp 5] 2
      (by decide)⟩

/-- C9 counterexample: the one-token vector holding the bare marker is
already reduced in the sense of the claim (no redirection operator, no
trailing ampersand), yet the parse does not return it unchanged: the marker
token is replaced by the pid string. -/
theorem C9_counterexample :
    ((['<'] ∉ ([['$', '$']] : List (List Char))) ∧
      (['>'] ∉ ([['$', '$']] : List (List Char))) ∧
      ([['$', '$']] : List (List Char)).getLast? ≠ some ['&']) ∧
    parseArgs 42 true [['$', '$']] ≠ ([['$', '$']], initParseState) := by
  refine ⟨⟨?_, ?_, ?_⟩, ?_⟩ <;> decide

/-- C9 (amended): on an argument vector with no redirection operator
token, no trailing ampersand token, and no adjacent dollar signs in any
token, the parse is the identity and leaves redirection and background
state unset. -/
theorem C9_amended (pid : Nat) (al : Bool) (ts : List (List Char))
    (hlt : ['<'] ∉ ts) (hgt : ['>'] ∉ ts) (hamp : ts.getLast? ≠ some ['&'])
    (hdd : ∀ t ∈ ts, hasDoubleDollar t = false) :
    parseArgs pid al ts = (ts, initParseState) :=
  parseArgsAux_id pid al ts initParseState hlt hgt hamp hdd

/-- C9 witness: the amended statement at a vector holding a literal
mid-position ampersand, which passes through unchanged. -/
theorem C9_amended_witness :
    ((['<'] ∉ (["echo".toList, ['&'], "hi".toList] : List (List Char))) ∧
      (['>'] ∉ (["echo".toList, ['&'], "hi".toList] : List (List Char))) ∧
      (["echo".toList, ['&'], "hi".toList] : List (List Char)).getLast? ≠
        some ['&'] ∧
      ∀ t ∈ (["echo".toList, ['&'], "hi".toList] : List (List Char)),
        hasDoubleDollar t = false) ∧
    parseArgs 4 true ["echo".toList, ['&'], "hi".toList] =
      (["echo".toList, ['&'], "hi".toList], initParseState) :=
  ⟨⟨by decide, by decide, by decide, by decide⟩,
    C9_amended 4 true ["echo".toList, ['&'], "hi".toList]
      (by decide) (by decide) (by decide) (by decide)⟩

/-- C10: in every run whose iterations never complete a foreground command
(no successful non-background spawn), the Results struct read by the status
builtin is still in its never-written initial state, so what the source
reads at smallsh.c lines 967-974 is the indeterminate content of the
uninitialised struct declared at line 936. -/
theorem C10_status_unwritten (cmds : List LoopCmd)
    (h : ∀ c ∈ cmds, writesStatus c = false) :
    (runLoop cmds).2 = none :=
  foldl_loopStep_none cmds createProcessArray h

/-- C10 witness: a run with builtins and one background spawn only. -/
theorem C10_status_unwritten_witness :
    (∀ c ∈ [LoopCmd.cdCmd, LoopCmd.statusCmd,
        LoopCmd.spawnCmd 99 true (WaitOutcome.exited 0)], writesStatus c = false) ∧
    (runLoop [LoopCmd.cdCmd, LoopCmd.statusCmd,
        LoopCmd.spawnCmd 99 true (WaitOutcome.exited 0)]).2 = none :=
  ⟨by decide, C10_status_unwritten _ (by decide)⟩
